import Mathlib

/-!
Verification of `md_yaml_converter.py`: a bidirectional codec between a
Markdown pipe table and a YAML/JSON list of dictionaries.

Python strings are modelled as lists of characters (`Str`), so that each
Python string operation used by the source (`strip`, `strip('|')`,
`lstrip('- ')`, `split('|')`, `split('\n')` on the literal two-character
escape, `join`, `startswith('- ')`) becomes an executable Lean function
on `List Char`.  A text file is modelled as the list of its physical
lines (the strings handed out by Python's file-line iteration, without
their trailing newline); each `f.write(... + '\n')` of the source
contributes one such line.
-/

/-- Python strings as lists of characters. -/
abbrev Str := List Char

/-- The whitespace characters stripped by Python's `str.strip()`. -/
def isPyWS (c : Char) : Bool :=
  c == ' ' || c == '\t' || c == '\n' || c == '\r' || c == '\x0b' || c == '\x0c'

/-- Drop the longest suffix whose characters all satisfy `p`. -/
def dropRightWhileL (p : Char → Bool) (l : Str) : Str :=
  (l.reverse.dropWhile p).reverse

/-- Python `str.strip()`: remove leading and trailing whitespace. -/
def strip (s : Str) : Str :=
  dropRightWhileL isPyWS (s.dropWhile isPyWS)

/-- Python `str.strip('|')`: remove leading and trailing pipe characters. -/
def stripPipe (s : Str) : Str :=
  dropRightWhileL (· == '|') (s.dropWhile (· == '|'))

/-- Python `str.lstrip('- ')`: remove every leading character that is `'-'` or `' '`
(`lstrip` takes a character set, not a prefix). -/
def lstripDashSpace (s : Str) : Str :=
  s.dropWhile (fun c => c == '-' || c == ' ')

/-- Python `value.startswith('- ')`. -/
def startsWithDashSpace (s : Str) : Bool :=
  match s with
  | c :: d :: _ => c == '-' && d == ' '
  | _ => false

/-- Python `str.split(sep)` for a single-character separator. -/
def pySplitChar (sep : Char) : Str → List Str
  | [] => [[]]
  | c :: rest =>
    if c = sep then [] :: pySplitChar sep rest
    else
      match pySplitChar sep rest with
      | chunk :: chunks => (c :: chunk) :: chunks
      | [] => [[c]]

/-- The literal two-character escape token backslash-n used inside table cells. -/
def esc : Str := ['\\', 'n']

/-- Python `str.split('\n')` where the separator is the literal two-character
backslash-n sequence: left-to-right scan for non-overlapping occurrences. -/
def pySplitEsc : Str → List Str
  | [] => [[]]
  | [c] => [[c]]
  | c :: d :: rest =>
    if c = '\\' ∧ d = 'n' then [] :: pySplitEsc rest
    else
      match pySplitEsc (d :: rest) with
      | chunk :: chunks => (c :: chunk) :: chunks
      | [] => [[c]]

/-- Whether the two-character escape token backslash-n occurs in `s`. -/
def containsEsc : Str → Bool
  | [] => false
  | [_] => false
  | c :: d :: rest => (c == '\\' && d == 'n') || containsEsc (d :: rest)

/-- Python `sep.join(parts)`. -/
def pyJoin (sep : Str) : List Str → Str
  | [] => []
  | [x] => x
  | x :: y :: rest => x ++ sep ++ pyJoin sep (y :: rest)

/-- A YAML value as produced by `yaml.safe_load` on this program's inputs:
null, a string scalar, a sequence, or a string-keyed mapping.  (Numeric and
boolean scalars are not needed by any claim and are omitted.) -/
inductive Yaml where
  | null
  | str (s : Str)
  | seq (xs : List Yaml)
  | map (kvs : List (Str × Yaml))

instance : Inhabited Yaml := ⟨.null⟩

/-- A record, i.e. one Python dictionary mapping field names to values. -/
abbrev Record := List (Str × Yaml)

mutual

/-- Python's `repr` for the values of this model (quote/backslash escaping inside
string reprs is not modelled; no claim evaluates the repr of a string). -/
def pyRepr : Yaml → Str
  | .null => "None".data
  | .str s => '\'' :: (s ++ ['\''])
  | .seq xs => '[' :: (pyJoin ", ".data (pyReprSeq xs) ++ [']'])
  | .map kvs => '\x7b' :: (pyJoin ", ".data (pyReprMap kvs) ++ ['\x7d'])

/-- The element reprs of a sequence, for `pyRepr`. -/
def pyReprSeq : List Yaml → List Str
  | [] => []
  | x :: xs => pyRepr x :: pyReprSeq xs

/-- The entry reprs of a mapping, for `pyRepr`. -/
def pyReprMap : List (Str × Yaml) → List Str
  | [] => []
  | (k, v) :: kvs => ('\'' :: (k ++ '\'' :: ':' :: ' ' :: pyRepr v)) :: pyReprMap kvs

end

/-- Python `str(value)`: the string itself for strings, `repr` otherwise
(as for lists and dicts, whose `str` equals their `repr`). -/
def pyStr : Yaml → Str
  | .str s => s
  | v => pyRepr v

/-- Python `d.get(k, '')`: the value at the first entry with key `k`,
or the empty string if absent. -/
def pyGet (r : Record) (k : Str) : Yaml :=
  match r with
  | [] => .str []
  | p :: rest => if p.1 = k then p.2 else pyGet rest k

/-- Whether a Python dictionary contains the key `k`. -/
def hasKey (d : Record) (k : Str) : Bool :=
  match d with
  | [] => false
  | p :: rest => if p.1 = k then true else hasKey rest k

/-- One assignment `d[k] = v` on a Python dictionary: overwrite the value in
place if the key is present (its position is kept), else append a new entry. -/
def pyDictInsert (d : Record) (k : Str) (v : Yaml) : Record :=
  if hasKey d k then d.map (fun p => if p.1 = k then (p.1, v) else p)
  else d ++ [(k, v)]

/-- Python `dict(pairs)`: insert the pairs left to right into an empty
dictionary, so a repeated key keeps its first position but its last value. -/
def pyDict (kvs : Record) : Record :=
  kvs.foldl (fun d kv => pyDictInsert d kv.1 kv.2) []

/-! ## The source functions of `md_yaml_converter.py` -/

/-- Source `parse_markdown_field(value)`: a cell beginning with `"- "` is decoded
as a bullet list — split on the literal backslash-n escape, keep the lines that
are non-blank, and map each kept line through `lstrip('- ').strip()`; any other
cell is returned as the string itself. -/
def parse_markdown_field (value : Str) : Yaml :=
  if startsWithDashSpace value then
    .seq (((pySplitEsc value).filter (fun line => strip line ≠ [])).map
      (fun line => .str (strip (lstripDashSpace line))))
  else .str value

/-- Source `format_markdown_cell(value)`: a list value is encoded as bullet
items `"- " + str(v)` joined by the literal backslash-n escape; any other
value is `str(value)`. -/
def format_markdown_cell (value : Yaml) : Str :=
  match value with
  | .seq xs => pyJoin esc (xs.map (fun v => '-' :: ' ' :: pyStr v))
  | v => pyStr v

/-- Source `validate_markdown_table(lines)`: `False` (after logging an error)
when fewer than 3 lines are present, `True` otherwise.  The per-row field-count
warnings it logs are modelled by `validate_markdown_table_warnings`. -/
def validate_markdown_table (lines : List Str) : Bool :=
  if lines.length < 3 then false
  else true

/-- The row numbers of the warnings logged by `validate_markdown_table`:
for each data row (`lines[2:]`, numbered from 3) whose
`line.strip('|').split('|')` field count differs from the header's.
(When fewer than 3 lines are present the source returns before this loop;
the loop range is then empty as well, so one definition covers both.) -/
def validate_markdown_table_warnings (lines : List Str) : List Nat :=
  match lines with
  | l0 :: _ :: rest =>
    (List.enumFrom 3 rest).filterMap (fun p =>
      if (pySplitChar '|' (stripPipe p.2)).length ≠
         (pySplitChar '|' (stripPipe l0)).length then some p.1 else none)
  | _ => []

/-- Outcome of `markdown_to_yaml`: the validation failure path (error logged,
return with nothing written and nothing raised), the dry-run path (record
count logged, nothing written), or a successful write of the parsed records. -/
inductive MdOutcome where
  | invalid
  | dryRunCount (n : Nat)
  | wrote (records : List Record)

/-- Source `markdown_to_yaml` up to serialization: strip the input's physical
lines and drop the blank ones; reject if fewer than 3 remain; take the trimmed
cells of line 1 as header names; discard line 2; build one record per further
line by `dict(zip(headers, parsed cells))`; in dry-run mode only the record
count is reported, otherwise the records are written out. -/
def markdown_to_yaml (fileLines : List Str) (dry_run : Bool) : MdOutcome :=
  let lines := (fileLines.map strip).filter (fun l => !l.isEmpty)
  if validate_markdown_table lines = false then .invalid
  else
    match lines with
    | l0 :: _ :: rest =>
      let headers := (pySplitChar '|' (stripPipe l0)).map strip
      let records := rest.map (fun line =>
        pyDict (headers.zip
          (((pySplitChar '|' (stripPipe line)).map strip).map parse_markdown_field)))
      if dry_run then .dryRunCount records.length else .wrote records
    | _ => .invalid  -- unreachable: validation guarantees at least 3 lines

/-- Python truthiness of a loaded YAML value (`if not records:`). -/
def truthy : Yaml → Bool
  | .null => false
  | .str s => !s.isEmpty
  | .seq xs => !xs.isEmpty
  | .map kvs => !kvs.isEmpty

/-- View a loaded YAML sequence as a list of dictionaries, if every element is
a mapping; a non-mapping element means the attribute accesses
`records[0].keys()` / `r.get(...)` of the source raise. -/
def asMapList : List Yaml → Option (List Record)
  | [] => some []
  | .map kvs :: rest => (asMapList rest).map (kvs :: ·)
  | _ => none

/-- The table line `'| ' + ' | '.join(row) + ' |'` written for a row of cells. -/
def rowLine (row : List Str) : Str :=
  '|' :: ' ' :: (pyJoin " | ".data row ++ [' ', '|'])

/-- The alignment line `'|:' + ':|:'.join(['-'] * len(headers)) + ':|'`. -/
def sepLine (headers : List Str) : Str :=
  '|' :: ':' :: (pyJoin ":|:".data (headers.map (fun _ => ['-'])) ++ [':', '|'])

/-- Outcome of `yaml_to_markdown`: the falsy-input path (warning logged, return
with nothing written), the dry-run path (row count logged, nothing written), a
successful write of the table's physical lines, or a raised exception
(logged and re-raised) when the loaded value is not a sequence of mappings. -/
inductive YamlOutcome where
  | emptyWarning
  | dryRunCount (n : Nat)
  | wrote (fileLines : List Str)
  | raised

/-- Source `yaml_to_markdown` after deserialization: a falsy value warns and
returns; otherwise the value must be a sequence of mappings (anything else
raises); the first record's keys become the headers, every record is rendered
through `format_markdown_cell (r.get(h, ''))`, and — unless in dry-run mode —
the header line, the alignment line and one line per record are written. -/
def yaml_to_markdown (input : Yaml) (dry_run : Bool) : YamlOutcome :=
  if !truthy input then .emptyWarning
  else
    match input with
    | .seq rs =>
      match asMapList rs with
      | some (r0 :: rest) =>
        let headers : List Str := r0.map Prod.fst
        let rows : List (List Str) :=
          headers :: (r0 :: rest).map (fun r => headers.map (fun h => format_markdown_cell (pyGet r h)))
        if dry_run then .dryRunCount (r0 :: rest).length
        else .wrote (rowLine headers :: sepLine headers :: (rows.drop 1).map rowLine)
      | _ => .raised  -- an element without `.keys`/`.get` (the `some []` case is excluded by truthiness)
    | _ => .raised  -- `records[0].keys()` fails on a truthy non-sequence

/-! ## The source CLI router -/

/-- Python `str.rfind(c)`: highest index of `c`, or `-1` if absent. -/
def pyRfind (c : Char) (s : Str) : Int :=
  match s.reverse.findIdx? (· == c) with
  | some i => (s.length : Int) - 1 - i
  | none => -1

/-- Python `os.path.splitext(p)` (posix): split at the last dot if it lies
after the last slash and the final component is not made of leading dots only. -/
def splitext (p : Str) : Str × Str :=
  let sepIndex := pyRfind '/' p
  let dotIndex := pyRfind '.' p
  if sepIndex < dotIndex then
    if ((p.drop (sepIndex + 1).toNat).take (dotIndex - sepIndex - 1).toNat).all (· == '.') then
      (p, [])
    else (p.take dotIndex.toNat, p.drop dotIndex.toNat)
  else (p, [])

/-- The two conversion directions, `'to-yaml'` and `'to-md'`. -/
inductive Mode where
  | toYaml
  | toMd
deriving DecidableEq, Repr

/-- Source `detect_mode(file_path)`: choose the direction from the lower-cased
extension; `none` models the immediate `sys.exit(1)` for any other extension. -/
def detect_mode (file_path : Str) : Option Mode :=
  let ext := (splitext file_path).2.map Char.toLower
  if ext = ".md".data ∨ ext = ".markdown".data then some .toYaml
  else if ext = ".yml".data ∨ ext = ".yaml".data then some .toMd
  else none

/-- Source `default_output_filename(input_file, mode, output_format)`:
`f"{base}.{output_format}"` towards the structured direction, `f"{base}.md"`
towards the table direction. -/
def default_output_filename (input_file : Str) (mode : Mode) (output_format : Str) : Str :=
  let base := (splitext input_file).1
  match mode with
  | .toYaml => base ++ '.' :: output_format
  | .toMd => base ++ ".md".data

/-- Outcome of `main`'s routing, before any file is opened: either the usage
exit of `detect_mode` (non-zero, prior to all I/O), or entry into the chosen
conversion with the chosen output path. -/
inductive MainOutcome where
  | usageExit
  | converted (mode : Mode) (output_file : Str)
deriving DecidableEq, Repr

/-- Source `main` up to the conversion call: detect the mode (exiting on an
unsupported extension), then take the explicit output path unless it is absent
or empty (`args.output or default_output_filename(...)`). -/
def mainRoute (input : Str) (output : Option Str) (format : Str) : MainOutcome :=
  match detect_mode input with
  | none => .usageExit
  | some mode =>
    .converted mode
      (match output with
       | some o => if o.isEmpty then default_output_filename input mode format else o
       | none => default_output_filename input mode format)

/-! ## Dictionary lemmas: `dict(zip(...))` semantics -/

theorem hasKey_eq_false_iff (d : Record) (k : Str) :
    hasKey d k = false ↔ ∀ p ∈ d, p.1 ≠ k := by
  induction d with
  | nil => simp [hasKey]
  | cons p rest ih =>
    by_cases h : p.1 = k <;> simp [hasKey, h, ih]

theorem hasKey_eq_decide (d : Record) (k : Str) :
    hasKey d k = decide (k ∈ d.map Prod.fst) := by
  induction d with
  | nil => simp [hasKey]
  | cons p rest ih =>
    by_cases h : p.1 = k
    · simp [hasKey, h]
    · have h' : ¬ k = p.1 := fun hh => h hh.symm
      simp [hasKey, h, ih, h']

theorem pyDict_append (l : Record) (p : Str × Yaml) :
    pyDict (l ++ [p]) = pyDictInsert (pyDict l) p.1 p.2 := by
  simp [pyDict, List.foldl_append]

theorem keys_pyDictInsert (d : Record) (k : Str) (v : Yaml) :
    (pyDictInsert d k v).map Prod.fst =
      if hasKey d k then d.map Prod.fst else d.map Prod.fst ++ [k] := by
  by_cases h : hasKey d k
  · simp only [pyDictInsert, h, if_pos, List.map_map]
    have : (Prod.fst ∘ fun p : Str × Yaml => if p.1 = k then (p.1, v) else p) = Prod.fst := by
      funext p
      by_cases hp : p.1 = k <;> simp [hp]
    simp [this]
  · simp [pyDictInsert, h]

theorem mem_keys_pyDict (l : Record) (k : Str) :
    k ∈ (pyDict l).map Prod.fst ↔ k ∈ l.map Prod.fst := by
  induction l using List.reverseRecOn generalizing k with
  | nil => simp [pyDict]
  | append_singleton l p ih =>
    rw [pyDict_append, keys_pyDictInsert, List.map_append, List.map_cons, List.map_nil]
    by_cases h : hasKey (pyDict l) p.1
    · have hmem : p.1 ∈ l.map Prod.fst := by
        have h2 : decide (p.1 ∈ (pyDict l).map Prod.fst) = true :=
          (hasKey_eq_decide (pyDict l) p.1).symm.trans h
        exact (ih p.1).mp (of_decide_eq_true h2)
      rw [if_pos h]
      simp only [List.mem_append, List.mem_singleton, ih k]
      constructor
      · exact Or.inl
      · rintro (hk | rfl)
        · exact hk
        · exact hmem
    · rw [if_neg h]
      simp only [List.mem_append, List.mem_singleton, ih k]

theorem hasKey_pyDict (l : Record) (k : Str) :
    hasKey (pyDict l) k = hasKey l k := by
  rw [hasKey_eq_decide, hasKey_eq_decide]
  exact decide_eq_decide.mpr (mem_keys_pyDict l k)

theorem pyDict_of_nodup (l : Record) (h : (l.map Prod.fst).Nodup) : pyDict l = l := by
  induction l using List.reverseRecOn with
  | nil => rfl
  | append_singleton l p ih =>
    rw [List.map_append, List.map_cons, List.map_nil, List.nodup_append] at h
    obtain ⟨hl, -, hdisj⟩ := h
    rw [pyDict_append, ih hl]
    have hk : hasKey l p.1 = false := by
      rw [hasKey_eq_false_iff]
      intro q hq hqk
      exact hdisj (List.mem_map_of_mem Prod.fst hq) (by simp [hqk])
    simp [pyDictInsert, hk]

theorem pyGet_of_not_hasKey (d : Record) (k : Str) (h : hasKey d k = false) :
    pyGet d k = .str [] := by
  induction d with
  | nil => rfl
  | cons p rest ih =>
    rw [hasKey] at h
    by_cases hp : p.1 = k
    · simp [hp] at h
    · rw [if_neg hp] at h
      simp [pyGet, hp, ih h]

theorem pyGet_append (d e : Record) (k : Str) :
    pyGet (d ++ e) k = if hasKey d k then pyGet d k else pyGet e k := by
  induction d with
  | nil => simp [hasKey]
  | cons p rest ih =>
    by_cases hp : p.1 = k <;> simp [pyGet, hasKey, hp, ih]

theorem pyGet_update_self (d : Record) (k : Str) (v : Yaml) (h : hasKey d k = true) :
    pyGet (d.map (fun p => if p.1 = k then (p.1, v) else p)) k = v := by
  induction d with
  | nil => simp [hasKey] at h
  | cons p rest ih =>
    rw [hasKey] at h
    by_cases hp : p.1 = k
    · simp [pyGet, hp]
    · rw [if_neg hp] at h
      simp [pyGet, hp, ih h]

theorem pyGet_update_other (d : Record) (k k' : Str) (v : Yaml) (h : k' ≠ k) :
    pyGet (d.map (fun p => if p.1 = k' then (p.1, v) else p)) k = pyGet d k := by
  induction d with
  | nil => rfl
  | cons p rest ih =>
    by_cases hp : p.1 = k'
    · simp [pyGet, hp, h, ih]
    · simp only [List.map_cons, if_neg hp]
      by_cases hk : p.1 = k <;> simp [pyGet, hk, ih]

theorem pyGet_pyDictInsert (d : Record) (k' : Str) (v : Yaml) (k : Str) :
    pyGet (pyDictInsert d k' v) k = if k' = k then v else pyGet d k := by
  by_cases hk : k' = k
  · subst hk
    by_cases h : hasKey d k'
    · simp [pyDictInsert, h, pyGet_update_self d k' v h]
    · simp only [pyDictInsert, Bool.not_eq_true] at h
      simp [pyDictInsert, h, pyGet_append, pyGet, pyGet_of_not_hasKey d k' h]
  · by_cases h : hasKey d k'
    · simp [pyDictInsert, h, pyGet_update_other d k k' v hk, hk]
    · simp only [pyDictInsert, Bool.not_eq_true] at h
      rw [pyDictInsert, h]
      simp only [Bool.false_eq_true, if_false, pyGet_append]
      by_cases hd : hasKey d k
      · simp [hd, hk]
      · simp only [Bool.not_eq_true] at hd
        simp [hd, pyGet, hk, pyGet_of_not_hasKey d k hd]

theorem pyGet_pyDict (l : Record) (k : Str) :
    pyGet (pyDict l) k = pyGet l.reverse k := by
  induction l using List.reverseRecOn with
  | nil => rfl
  | append_singleton l p ih =>
    rw [pyDict_append, pyGet_pyDictInsert, List.reverse_append]
    simp only [List.reverse_cons, List.reverse_nil, List.nil_append, List.singleton_append]
    by_cases hp : p.1 = k <;> simp [pyGet, hp, ih]

theorem length_pyDictInsert (d : Record) (k : Str) (v : Yaml) :
    (pyDictInsert d k v).length = if hasKey d k then d.length else d.length + 1 := by
  by_cases h : hasKey d k <;> simp [pyDictInsert, h]

theorem length_pyDict_le (l : Record) : (pyDict l).length ≤ l.length := by
  induction l using List.reverseRecOn with
  | nil => simp [pyDict]
  | append_singleton l p ih =>
    rw [pyDict_append, length_pyDictInsert]
    by_cases h : hasKey (pyDict l) p.1 <;> simp [h, List.length_append] <;> omega

theorem length_pyDict_lt (l : Record) (h : ¬ (l.map Prod.fst).Nodup) :
    (pyDict l).length < l.length := by
  induction l using List.reverseRecOn with
  | nil => simp at h
  | append_singleton l p ih =>
    rw [pyDict_append, length_pyDictInsert, List.length_append]
    by_cases hl : (l.map Prod.fst).Nodup
    · have hmem : p.1 ∈ l.map Prod.fst := by
        by_contra hmem
        apply h
        rw [List.map_append, List.map_cons, List.map_nil, List.nodup_append]
        exact ⟨hl, List.nodup_singleton _, by
          intro a ha hb
          rw [List.mem_singleton] at hb
          exact hmem (hb ▸ ha)⟩
      have hk : hasKey (pyDict l) p.1 = true := by
        rw [hasKey_pyDict, hasKey_eq_decide]
        exact decide_eq_true hmem
      have := length_pyDict_le l
      simp [hk]
      omega
    · have := ih hl
      by_cases hk : hasKey (pyDict l) p.1 <;> simp [hk] <;> omega

/-! ## String lemmas -/

theorem length_dropRightWhileL_le (p : Char → Bool) (l : Str) :
    (dropRightWhileL p l).length ≤ l.length := by
  have h := (List.dropWhile_suffix (l := l.reverse) p).length_le
  simpa [dropRightWhileL] using h

theorem length_strip_le (l : Str) : (strip l).length ≤ l.length :=
  le_trans (length_dropRightWhileL_le _ _) (List.dropWhile_suffix _).length_le

theorem strip_cons_sat (c : Char) (l : Str) (hc : isPyWS c = true) :
    strip (c :: l) = strip l := by
  simp [strip, List.dropWhile_cons, hc]

theorem dropRightWhileL_append_sat (p : Char → Bool) (l : Str) (c : Char) (hc : p c = true) :
    dropRightWhileL p (l ++ [c]) = dropRightWhileL p l := by
  simp [dropRightWhileL, List.dropWhile_cons, hc]

theorem strip_append_sat (l : Str) (c : Char) (hc : isPyWS c = true) :
    strip (l ++ [c]) = strip l := by
  unfold strip
  rw [List.dropWhile_append]
  by_cases h : (l.dropWhile isPyWS).isEmpty
  · rw [if_pos h]
    have h' : l.dropWhile isPyWS = [] := by simpa [List.isEmpty_iff] using h
    simp [h', List.dropWhile_cons, hc]
  · rw [if_neg h]
    exact dropRightWhileL_append_sat _ _ _ hc

theorem strip_of_bounds (a b : Char) (l : Str) (ha : isPyWS a = false) (hb : isPyWS b = false) :
    strip (a :: (l ++ [b])) = a :: (l ++ [b]) := by
  unfold strip dropRightWhileL
  rw [List.dropWhile_cons_of_neg (by simp [ha])]
  rw [show (a :: (l ++ [b])).reverse = b :: (l.reverse ++ [a]) by simp]
  rw [List.dropWhile_cons_of_neg (by simp [hb])]
  simp

theorem strip_eq_nil_iff (l : Str) : strip l = [] ↔ ∀ c ∈ l, isPyWS c := by
  unfold strip dropRightWhileL
  rw [List.reverse_eq_nil_iff, List.dropWhile_eq_nil_iff]
  simp only [List.mem_reverse]
  constructor
  · intro h c hc
    rw [← List.takeWhile_append_dropWhile (p := isPyWS) (l := l)] at hc
    rcases List.mem_append.mp hc with h1 | h2
    · exact List.mem_takeWhile_imp h1
    · exact h c h2
  · intro h c hc
    exact h c ((List.dropWhile_suffix isPyWS).subset hc)

theorem strip_ne_nil_of_mem (l : Str) (c : Char) (hc : c ∈ l) (h : isPyWS c = false) :
    strip l ≠ [] := by
  intro hnil
  have := (strip_eq_nil_iff l).mp hnil c hc
  rw [h] at this
  exact Bool.false_ne_true this

theorem strip_self_head (a : Char) (t : Str) (h : strip (a :: t) = a :: t) :
    isPyWS a = false := by
  by_contra hws
  rw [Bool.not_eq_false] at hws
  have h2 := congrArg List.length ((strip_cons_sat a t hws).symm.trans h)
  have h3 := length_strip_le t
  simp at h2
  omega

theorem strip_self_last (x : Str) (b : Char) (h : strip (x ++ [b]) = x ++ [b]) :
    isPyWS b = false := by
  by_contra hws
  rw [Bool.not_eq_false] at hws
  have h2 := congrArg List.length ((strip_append_sat x b hws).symm.trans h)
  have h3 := length_strip_le x
  simp at h2
  omega

theorem strip_pad (c : Str) (h : strip c = c) : strip (' ' :: (c ++ [' '])) = c := by
  rw [strip_cons_sat _ _ (by decide), strip_append_sat _ _ (by decide)]
  exact h

/-! ## Splitting and joining lemmas -/

theorem pySplitChar_ne_nil (sep : Char) (s : Str) : pySplitChar sep s ≠ [] := by
  induction s with
  | nil => simp [pySplitChar]
  | cons c rest ih =>
    by_cases h : c = sep
    · simp [pySplitChar, h]
    · simp only [pySplitChar, if_neg h]
      cases hs : pySplitChar sep rest with
      | nil => simp
      | cons a as => simp

theorem pySplitChar_not_mem (sep : Char) (s : Str) (h : sep ∉ s) : pySplitChar sep s = [s] := by
  induction s with
  | nil => rfl
  | cons c rest ih =>
    have hc : ¬ c = sep := by
      rintro rfl
      exact h (List.mem_cons_self _ _)
    have hr : sep ∉ rest := fun hm => h (List.mem_cons_of_mem _ hm)
    simp [pySplitChar, if_neg hc, ih hr]

theorem pySplitChar_append_sep (sep : Char) (p rest : Str) (hp : sep ∉ p) :
    pySplitChar sep (p ++ sep :: rest) = p :: pySplitChar sep rest := by
  induction p with
  | nil => simp [pySplitChar]
  | cons c t ih =>
    have hc : ¬ c = sep := by
      rintro rfl
      exact hp (List.mem_cons_self _ _)
    have ht : sep ∉ t := fun hm => hp (List.mem_cons_of_mem _ hm)
    simp [pySplitChar, if_neg hc, ih ht]

theorem pySplitChar_join (sep : Char) (parts : List Str) (hne : parts ≠ [])
    (h : ∀ p ∈ parts, sep ∉ p) :
    pySplitChar sep (pyJoin [sep] parts) = parts := by
  induction parts with
  | nil => exact absurd rfl hne
  | cons p ps ih =>
    cases ps with
    | nil => exact pySplitChar_not_mem sep p (h p (List.mem_cons_self _ _))
    | cons q qs =>
      rw [pyJoin, List.append_assoc, List.singleton_append,
        pySplitChar_append_sep sep p _ (h p (List.mem_cons_self _ _)),
        ih (by simp) (fun r hr => h r (List.mem_cons_of_mem _ hr))]

theorem containsEsc_cons_not_bs (a : Char) (s : Str) (ha : a ≠ '\\') :
    containsEsc (a :: s) = containsEsc s := by
  cases s with
  | nil => rfl
  | cons b t =>
    rw [containsEsc]
    have : (a == '\\') = false := by
      simpa using ha
    simp [this]

theorem pySplitEsc_no_esc (s : Str) (h : containsEsc s = false) : pySplitEsc s = [s] := by
  induction s with
  | nil => rfl
  | cons c t ih =>
    cases t with
    | nil => rfl
    | cons d rest =>
      rw [containsEsc, Bool.or_eq_false_iff] at h
      obtain ⟨h1, h2⟩ := h
      have hne : ¬(c = '\\' ∧ d = 'n') := by
        intro ⟨hc, hd⟩
        subst hc
        subst hd
        simp at h1
      rw [pySplitEsc, if_neg hne, ih h2]

theorem pySplitEsc_append_esc (p rest : Str) (hp : containsEsc p = false) :
    pySplitEsc (p ++ '\\' :: 'n' :: rest) = p :: pySplitEsc rest := by
  induction p with
  | nil =>
    rw [List.nil_append, pySplitEsc, if_pos ⟨rfl, rfl⟩]
  | cons c t ih =>
    cases t with
    | nil =>
      have hne : ¬(c = '\\' ∧ '\\' = 'n') := by
        intro ⟨_, hd⟩
        exact absurd hd (by decide)
      rw [List.singleton_append, pySplitEsc, if_neg hne,
        show pySplitEsc ('\\' :: 'n' :: rest) = [] :: pySplitEsc rest by
          rw [pySplitEsc, if_pos ⟨rfl, rfl⟩]]
    | cons d u =>
      rw [containsEsc, Bool.or_eq_false_iff] at hp
      obtain ⟨h1, h2⟩ := hp
      have hne : ¬(c = '\\' ∧ d = 'n') := by
        intro ⟨hc, hd⟩
        subst hc
        subst hd
        simp at h1
      have hstep : (c :: d :: u) ++ '\\' :: 'n' :: rest = c :: d :: (u ++ '\\' :: 'n' :: rest) := rfl
      rw [hstep, pySplitEsc, if_neg hne,
        show d :: (u ++ '\\' :: 'n' :: rest) = (d :: u) ++ '\\' :: 'n' :: rest from rfl,
        ih h2]

theorem pySplitEsc_joinEsc (parts : List Str) (hne : parts ≠ [])
    (h : ∀ p ∈ parts, containsEsc p = false) :
    pySplitEsc (pyJoin esc parts) = parts := by
  induction parts with
  | nil => exact absurd rfl hne
  | cons p ps ih =>
    cases ps with
    | nil => exact pySplitEsc_no_esc p (h p (List.mem_cons_self _ _))
    | cons q qs =>
      rw [pyJoin, List.append_assoc,
        show esc ++ pyJoin esc (q :: qs) = '\\' :: 'n' :: pyJoin esc (q :: qs) from rfl,
        pySplitEsc_append_esc _ _ (h p (List.mem_cons_self _ _)),
        ih (by simp) (fun r hr => h r (List.mem_cons_of_mem _ hr))]

theorem mem_pyJoin (c : Char) (sep : Str) (parts : List Str) (h : c ∈ pyJoin sep parts) :
    c ∈ sep ∨ ∃ p ∈ parts, c ∈ p := by
  induction parts with
  | nil => simp [pyJoin] at h
  | cons x xs ih =>
    cases xs with
    | nil => exact Or.inr ⟨x, by simp, h⟩
    | cons y ys =>
      rw [pyJoin] at h
      rcases List.mem_append.mp h with h1 | h2
      · rcases List.mem_append.mp h1 with hx | hs
        · exact Or.inr ⟨x, by simp, hx⟩
        · exact Or.inl hs
      · rcases ih h2 with hs | ⟨p, hp, hc⟩
        · exact Or.inl hs
        · exact Or.inr ⟨p, List.mem_cons_of_mem _ hp, hc⟩

theorem getLast?_pyJoin (sep : Str) (parts : List Str) (x : Str)
    (h : parts.getLast? = some x) (hx : x ≠ []) :
    (pyJoin sep parts).getLast? = x.getLast? := by
  induction parts with
  | nil => simp at h
  | cons p ps ih =>
    cases ps with
    | nil =>
      simp only [List.getLast?_singleton, Option.some_inj] at h
      subst h
      rfl
    | cons q qs =>
      rw [List.getLast?_cons_cons] at h
      have hJ := ih h
      have hJne : pyJoin sep (q :: qs) ≠ [] := by
        intro h0
        have hs : x.getLast?.isSome := List.getLast?_isSome.mpr hx
        rw [← hJ, h0] at hs
        simp at hs
      rw [pyJoin, List.append_assoc, List.getLast?_append_of_ne_nil,
        List.getLast?_append_of_ne_nil _ hJne, hJ]
      intro h0
      exact hJne (by simpa using (List.append_eq_nil.mp h0).2)

theorem head?_pyJoin (sep : Str) (a : Char) (t : Str) (parts : List Str) :
    (pyJoin sep ((a :: t) :: parts)).head? = some a := by
  cases parts with
  | nil => simp [pyJoin]
  | cons y ys =>
    rw [pyJoin]
    simp

theorem strip_self_of_ends (s : Str) (hne : s ≠ [])
    (hh : ∀ a, s.head? = some a → isPyWS a = false)
    (hl : ∀ b, s.getLast? = some b → isPyWS b = false) : strip s = s := by
  obtain ⟨a, t, rfl⟩ : ∃ a t, s = a :: t := by
    cases s with
    | nil => exact absurd rfl hne
    | cons a t => exact ⟨a, t, rfl⟩
  have ha : isPyWS a = false := hh a rfl
  induction t using List.reverseRecOn with
  | nil => simp [strip, dropRightWhileL, List.dropWhile_cons, ha]
  | append_singleton mid b _ =>
    have hb : isPyWS b = false := by
      apply hl b
      rw [show a :: (mid ++ [b]) = (a :: mid) ++ [b] from rfl, List.getLast?_concat]
    exact strip_of_bounds a b mid ha hb

/-! ## Well-behaved values: the side conditions of the amended round trip -/

/-- A header or cell string that survives the table line format: already
stripped, and free of pipes and physical line breaks. -/
abbrev goodName (h : Str) : Prop :=
  strip h = h ∧ '|' ∉ h ∧ '\n' ∉ h ∧ '\r' ∉ h

/-- A scalar field value that survives a table round trip: a good name that
does not begin with the bullet marker `"- "`. -/
abbrev goodScalar (s : Str) : Prop :=
  goodName s ∧ startsWithDashSpace s = false

/-- A list item that survives bullet encoding and re-parsing: non-empty,
already stripped, not beginning with `'-'`, free of pipes, physical line
breaks and of the literal backslash-n escape token. -/
abbrev goodItem (s : Str) : Prop :=
  goodName s ∧ s ≠ [] ∧ s.head? ≠ some '-' ∧ containsEsc s = false

/-- All elements of a list value are strings that are good items. -/
def goodItems : List Yaml → Prop
  | [] => True
  | .str s :: rest => goodItem s ∧ goodItems rest
  | _ => False

/-- A field value that survives a table round trip: a good scalar string, or a
non-empty sequence of good item strings. -/
def goodValue : Yaml → Prop
  | .str s => goodScalar s
  | .seq xs => xs ≠ [] ∧ goodItems xs
  | _ => False

/-! ## Cell-level round trip -/

theorem lstripDashSpace_bullet (s : Str) (hne : s ≠ []) (hh : s.head? ≠ some '-')
    (hws : strip s = s) : lstripDashSpace ('-' :: ' ' :: s) = s := by
  obtain ⟨a, t, rfl⟩ : ∃ a t, s = a :: t := by
    cases s with
    | nil => exact absurd rfl hne
    | cons a t => exact ⟨a, t, rfl⟩
  have ha1 : a ≠ '-' := by
    intro h0
    subst h0
    exact hh rfl
  have ha2 : isPyWS a = false := strip_self_head a t hws
  have ha3 : a ≠ ' ' := by
    intro h0
    subst h0
    simp [isPyWS] at ha2
  unfold lstripDashSpace
  rw [List.dropWhile_cons_of_pos (by decide), List.dropWhile_cons_of_pos (by decide),
    List.dropWhile_cons_of_neg (by simp [ha1, ha3])]

theorem goodItems_exists (xs : List Yaml) (h : goodItems xs) :
    ∃ items : List Str, xs = items.map .str ∧ ∀ s ∈ items, goodItem s := by
  induction xs with
  | nil => exact ⟨[], rfl, by simp⟩
  | cons x rest ih =>
    cases x with
    | str s =>
      obtain ⟨hs, hrest⟩ := h
      obtain ⟨items, rfl, hgood⟩ := ih hrest
      refine ⟨s :: items, rfl, ?_⟩
      intro r hr
      rcases List.mem_cons.mp hr with rfl | hr'
      · exact hs
      · exact hgood r hr'
    | null => exact h.elim
    | seq _ => exact h.elim
    | map _ => exact h.elim

theorem format_cell_items (items : List Str) :
    format_markdown_cell (.seq (items.map .str)) =
      pyJoin esc (items.map (fun s => '-' :: ' ' :: s)) := by
  show pyJoin esc ((items.map Yaml.str).map (fun v => '-' :: ' ' :: pyStr v)) = _
  rw [List.map_map]
  rfl

theorem parse_format_items (items : List Str) (hne : items ≠ [])
    (h : ∀ s ∈ items, goodItem s) :
    parse_markdown_field (format_markdown_cell (.seq (items.map .str))) =
      .seq (items.map .str) := by
  rw [format_cell_items]
  obtain ⟨s0, irest, rfl⟩ : ∃ s0 irest, items = s0 :: irest := by
    cases items with
    | nil => exact absurd rfl hne
    | cons s0 irest => exact ⟨s0, irest, rfl⟩
  have hstart : startsWithDashSpace (pyJoin esc ((s0 :: irest).map (fun s => '-' :: ' ' :: s))) = true := by
    cases irest with
    | nil => rfl
    | cons q qs => rfl
  have hsplit : pySplitEsc (pyJoin esc ((s0 :: irest).map (fun s => '-' :: ' ' :: s)))
      = (s0 :: irest).map (fun s => '-' :: ' ' :: s) := by
    apply pySplitEsc_joinEsc _ (by simp)
    intro p hp
    obtain ⟨s, hs, rfl⟩ := List.mem_map.mp hp
    have hcs : containsEsc s = false := (h s hs).2.2.2
    rw [containsEsc_cons_not_bs '-' _ (by decide), containsEsc_cons_not_bs ' ' _ (by decide), hcs]
  rw [parse_markdown_field, if_pos hstart, hsplit]
  have hfilter : ((s0 :: irest).map (fun s => '-' :: ' ' :: s)).filter
      (fun line => decide (strip line ≠ [])) = (s0 :: irest).map (fun s => '-' :: ' ' :: s) := by
    apply List.filter_eq_self.mpr
    intro a ha
    obtain ⟨s, hs, rfl⟩ := List.mem_map.mp ha
    exact decide_eq_true (strip_ne_nil_of_mem _ '-' (by simp) (by decide))
  rw [hfilter]
  congr 1
  rw [List.map_map]
  apply List.map_congr_left
  intro s hs
  have hg := h s hs
  show Yaml.str (strip (lstripDashSpace ('-' :: ' ' :: s))) = Yaml.str s
  rw [lstripDashSpace_bullet s hg.2.1 hg.2.2.1 hg.1.1, hg.1.1]

theorem parse_format_value (v : Yaml) (h : goodValue v) :
    parse_markdown_field (format_markdown_cell v) = v := by
  cases v with
  | str s =>
    show parse_markdown_field s = .str s
    rw [parse_markdown_field, if_neg (by simp [h.2])]
  | seq xs =>
    obtain ⟨hne, hitems⟩ := h
    obtain ⟨items, rfl, hgood⟩ := goodItems_exists xs hitems
    refine parse_format_items items (fun h0 => hne ?_) hgood
    rw [h0]
    rfl
  | null => exact h.elim
  | map kvs => exact h.elim

theorem format_cell_goodName (v : Yaml) (h : goodValue v) :
    goodName (format_markdown_cell v) := by
  cases v with
  | str s => exact h.1
  | seq xs =>
    obtain ⟨hne, hitems⟩ := h
    obtain ⟨items, rfl, hgood⟩ := goodItems_exists xs hitems
    obtain ⟨s0, irest, rfl⟩ : ∃ s0 irest, items = s0 :: irest := by
      cases items with
      | nil => exact absurd rfl hne
      | cons s0 irest => exact ⟨s0, irest, rfl⟩
    rw [format_cell_items]
    have hmem : ∀ c, c ∈ pyJoin esc ((s0 :: irest).map (fun s => '-' :: ' ' :: s)) →
        c = '\\' ∨ c = 'n' ∨ c = '-' ∨ c = ' ' ∨ ∃ s ∈ s0 :: irest, c ∈ s := by
      intro c hc
      rcases mem_pyJoin c _ _ hc with hsep | ⟨p, hp, hcp⟩
      · have h2 : c = '\\' ∨ c = 'n' := by simpa [esc] using hsep
        rcases h2 with rfl | rfl
        · exact Or.inl rfl
        · exact Or.inr (Or.inl rfl)
      · obtain ⟨s, hs, rfl⟩ := List.mem_map.mp hp
        rcases List.mem_cons.mp hcp with rfl | hcp'
        · simp
        · rcases List.mem_cons.mp hcp' with rfl | hcp''
          · simp
          · exact Or.inr (Or.inr (Or.inr (Or.inr ⟨s, hs, hcp''⟩)))
    refine ⟨?_, ?_, ?_, ?_⟩
    · -- strip cell = cell
      apply strip_self_of_ends
      · intro h0
        have h1 := congrArg List.head? h0
        simp only [List.map_cons] at h1
        rw [head?_pyJoin] at h1
        simp at h1
      · intro a ha
        simp only [List.map_cons] at ha
        rw [head?_pyJoin] at ha
        obtain rfl : '-' = a := Option.some_inj.mp ha
        decide
      · intro b hb
        obtain ⟨sl, hsl⟩ : ∃ sl, (s0 :: irest).getLast? = some sl := by
          cases h0 : (s0 :: irest).getLast? with
          | none => simp at h0
          | some sl => exact ⟨sl, rfl⟩
        have hgl := hgood sl (List.mem_of_getLast?_eq_some hsl)
        obtain ⟨x, b', rfl⟩ : ∃ x b', sl = x ++ [b'] := by
          rcases List.eq_nil_or_concat sl with rfl | ⟨x, b', rfl⟩
          · exact absurd rfl hgl.2.1
          · exact ⟨x, b', by simp⟩
        have hbl : (pyJoin esc ((s0 :: irest).map (fun s => '-' :: ' ' :: s))).getLast?
            = some b' := by
          rw [getLast?_pyJoin esc _ ('-' :: ' ' :: (x ++ [b']))
            (by rw [List.getLast?_map, hsl]; rfl) (by simp),
            show '-' :: ' ' :: (x ++ [b']) = ('-' :: ' ' :: x) ++ [b'] from rfl,
            List.getLast?_concat]
        rw [hb] at hbl
        obtain rfl : b = b' := Option.some_inj.mp hbl
        exact strip_self_last x b hgl.1.1
    · intro hc
      rcases hmem '|' hc with h1 | h1 | h1 | h1 | ⟨s, hs, hcs⟩
      · exact absurd h1 (by decide)
      · exact absurd h1 (by decide)
      · exact absurd h1 (by decide)
      · exact absurd h1 (by decide)
      · exact (hgood s hs).1.2.1 hcs
    · intro hc
      rcases hmem '\n' hc with h1 | h1 | h1 | h1 | ⟨s, hs, hcs⟩
      · exact absurd h1 (by decide)
      · exact absurd h1 (by decide)
      · exact absurd h1 (by decide)
      · exact absurd h1 (by decide)
      · exact (hgood s hs).1.2.2.1 hcs
    · intro hc
      rcases hmem '\r' hc with h1 | h1 | h1 | h1 | ⟨s, hs, hcs⟩
      · exact absurd h1 (by decide)
      · exact absurd h1 (by decide)
      · exact absurd h1 (by decide)
      · exact absurd h1 (by decide)
      · exact (hgood s hs).1.2.2.2 hcs
  | null => exact h.elim
  | map kvs => exact h.elim

/-! ## Row-level round trip -/

theorem stripPipe_rowLine (row : List Str) :
    stripPipe (rowLine row) = ' ' :: (pyJoin " | ".data row ++ [' ']) := by
  unfold rowLine stripPipe dropRightWhileL
  rw [List.dropWhile_cons_of_pos (by decide), List.dropWhile_cons_of_neg (by decide)]
  rw [show (' ' :: (pyJoin " | ".data row ++ [' ', '|'])).reverse
      = '|' :: ' ' :: ((pyJoin " | ".data row).reverse ++ [' ']) by simp]
  rw [List.dropWhile_cons_of_pos (by decide), List.dropWhile_cons_of_neg (by decide)]
  simp

theorem pad_join (cells : List Str) (hne : cells ≠ []) :
    ' ' :: (pyJoin " | ".data cells ++ [' ']) =
      pyJoin ['|'] (cells.map (fun c => ' ' :: (c ++ [' ']))) := by
  induction cells with
  | nil => exact absurd rfl hne
  | cons c cs ih =>
    cases cs with
    | nil => simp [pyJoin]
    | cons d ds =>
      have ih' := ih (by simp)
      rw [List.map_cons] at ih'
      have hsep : " | ".data = [' ', '|', ' '] := rfl
      rw [pyJoin, List.map_cons, List.map_cons, pyJoin, ← ih', hsep]
      simp

theorem parse_rowLine (cells : List Str) (hne : cells ≠ [])
    (hp : ∀ c ∈ cells, '|' ∉ c) (hs : ∀ c ∈ cells, strip c = c) :
    (pySplitChar '|' (stripPipe (rowLine cells))).map strip = cells := by
  have hjoin : pySplitChar '|' (pyJoin ['|'] (cells.map (fun c => ' ' :: (c ++ [' ']))))
      = cells.map (fun c => ' ' :: (c ++ [' '])) := by
    apply pySplitChar_join
    · simpa using hne
    · intro p hp2
      obtain ⟨c, hc, rfl⟩ := List.mem_map.mp hp2
      intro hmem
      rcases List.mem_cons.mp hmem with h1 | h1
      · exact absurd h1 (by decide)
      · rcases List.mem_append.mp h1 with h2 | h2
        · exact hp c hc h2
        · exact absurd (List.mem_singleton.mp h2) (by decide)
  rw [stripPipe_rowLine, pad_join cells hne, hjoin, List.map_map]
  have hcongr : ∀ c ∈ cells, (strip ∘ fun c => ' ' :: (c ++ [' '])) c = id c :=
    fun c hc => strip_pad c (hs c hc)
  rw [List.map_congr_left hcongr, List.map_id]

theorem strip_rowLine (row : List Str) : strip (rowLine row) = rowLine row := by
  have h : rowLine row = '|' :: ((' ' :: (pyJoin " | ".data row ++ [' '])) ++ ['|']) := by
    unfold rowLine
    simp
  rw [h]
  exact strip_of_bounds _ _ _ (by decide) (by decide)

theorem strip_sepLine (headers : List Str) : strip (sepLine headers) = sepLine headers := by
  have h : sepLine headers = '|' :: ((':' :: (pyJoin ":|:".data (headers.map (fun _ => ['-'])) ++ [':'])) ++ ['|']) := by
    unfold sepLine
    simp
  rw [h]
  exact strip_of_bounds _ _ _ (by decide) (by decide)

/-! ## Document-level round trip -/

theorem pyGet_mem (r : Record) (k : Str) (hk : k ∈ r.map Prod.fst) :
    ∃ p ∈ r, p.1 = k ∧ pyGet r k = p.2 := by
  induction r with
  | nil => simp at hk
  | cons p rest ih =>
    by_cases h : p.1 = k
    · exact ⟨p, List.mem_cons_self _ _, h, by simp [pyGet, h]⟩
    · have hk' : k ∈ rest.map Prod.fst := by
        rw [List.map_cons] at hk
        rcases List.mem_cons.mp hk with h1 | h1
        · exact absurd h1.symm h
        · exact h1
      obtain ⟨q, hq, hqk, hget⟩ := ih hk'
      exact ⟨q, List.mem_cons_of_mem _ hq, hqk, by simp [pyGet, h, hget]⟩

theorem zip_get_eq_self (r : Record) (hnd : (r.map Prod.fst).Nodup) :
    (r.map Prod.fst).zip ((r.map Prod.fst).map (fun k => pyGet r k)) = r := by
  induction r with
  | nil => rfl
  | cons p rest ih =>
    simp only [List.map_cons] at hnd
    have hnotin : p.1 ∉ rest.map Prod.fst := (List.nodup_cons.mp hnd).1
    have hnd' : (rest.map Prod.fst).Nodup := (List.nodup_cons.mp hnd).2
    simp only [List.map_cons, List.zip_cons_cons]
    congr 1
    · show (p.1, pyGet (p :: rest) p.1) = p
      simp [pyGet]
    · have hcongr : ∀ k ∈ rest.map Prod.fst,
          (fun k => pyGet (p :: rest) k) k = (fun k => pyGet rest k) k := by
        intro k hk
        have hne : ¬ p.1 = k := fun h0 => hnotin (h0 ▸ hk)
        simp [pyGet, hne]
      rw [List.map_congr_left hcongr, ih hnd']

theorem record_roundtrip (headers : List Str) (r : Record)
    (hne : headers ≠ []) (hnd : headers.Nodup) (hkeys : r.map Prod.fst = headers)
    (hvals : ∀ p ∈ r, goodValue p.2) :
    pyDict (headers.zip
      (((pySplitChar '|' (stripPipe
          (rowLine (headers.map (fun h => format_markdown_cell (pyGet r h)))))).map strip).map
        parse_markdown_field)) = r := by
  have hval : ∀ h ∈ headers, goodValue (pyGet r h) := by
    intro h hh
    obtain ⟨p, hp, -, hget⟩ := pyGet_mem r h (by rw [hkeys]; exact hh)
    rw [hget]
    exact hvals p hp
  have hcells := parse_rowLine (headers.map (fun h => format_markdown_cell (pyGet r h)))
    (by simpa using hne)
    (by
      intro c hc
      obtain ⟨h, hh, rfl⟩ := List.mem_map.mp hc
      exact (format_cell_goodName _ (hval h hh)).2.1)
    (by
      intro c hc
      obtain ⟨h, hh, rfl⟩ := List.mem_map.mp hc
      exact (format_cell_goodName _ (hval h hh)).1)
  rw [hcells, List.map_map]
  have hparse : ∀ h ∈ headers,
      (parse_markdown_field ∘ fun h => format_markdown_cell (pyGet r h)) h
        = (fun k => pyGet r k) h := by
    intro h hh
    exact parse_format_value _ (hval h hh)
  rw [List.map_congr_left hparse]
  subst hkeys
  rw [zip_get_eq_self r hnd]
  exact pyDict_of_nodup r hnd

theorem asMapList_map (rs : List Record) : asMapList (rs.map Yaml.map) = some rs := by
  induction rs with
  | nil => rfl
  | cons r rest ih => simp [asMapList, ih]

theorem yaml_to_markdown_eq (r0 : Record) (rest : List Record) :
    yaml_to_markdown (.seq ((r0 :: rest).map Yaml.map)) false =
      .wrote (rowLine (r0.map Prod.fst) :: sepLine (r0.map Prod.fst) ::
        (r0 :: rest).map (fun r =>
          rowLine ((r0.map Prod.fst).map (fun h => format_markdown_cell (pyGet r h))))) := by
  rw [yaml_to_markdown, asMapList_map]
  simp [truthy]

theorem document_roundtrip (r0 : Record) (rest : List Record)
    (hne : r0.map Prod.fst ≠ []) (hnd : (r0.map Prod.fst).Nodup)
    (hnames : ∀ h ∈ r0.map Prod.fst, goodName h)
    (hrecs : ∀ r ∈ r0 :: rest, r.map Prod.fst = r0.map Prod.fst ∧ ∀ p ∈ r, goodValue p.2) :
    ∃ L, yaml_to_markdown (.seq ((r0 :: rest).map Yaml.map)) false = .wrote L ∧
         markdown_to_yaml L false = .wrote (r0 :: rest) := by
  refine ⟨_, yaml_to_markdown_eq r0 rest, ?_⟩
  have hlines : (((rowLine (r0.map Prod.fst) :: sepLine (r0.map Prod.fst) ::
      (r0 :: rest).map (fun r =>
        rowLine ((r0.map Prod.fst).map (fun h => format_markdown_cell (pyGet r h))))).map
          strip).filter (fun l => !l.isEmpty))
      = rowLine (r0.map Prod.fst) :: sepLine (r0.map Prod.fst) ::
        (r0 :: rest).map (fun r =>
          rowLine ((r0.map Prod.fst).map (fun h => format_markdown_cell (pyGet r h)))) := by
    have hmap : ∀ a ∈ rowLine (r0.map Prod.fst) :: sepLine (r0.map Prod.fst) ::
        (r0 :: rest).map (fun r =>
          rowLine ((r0.map Prod.fst).map (fun h => format_markdown_cell (pyGet r h)))),
        strip a = id a := by
      intro a ha
      rcases List.mem_cons.mp ha with rfl | ha1
      · exact strip_rowLine _
      rcases List.mem_cons.mp ha1 with rfl | ha2
      · exact strip_sepLine _
      obtain ⟨r, hr, rfl⟩ := List.mem_map.mp ha2
      exact strip_rowLine _
    rw [List.map_congr_left hmap, List.map_id]
    apply List.filter_eq_self.mpr
    intro a ha
    rcases List.mem_cons.mp ha with rfl | ha1
    · rfl
    rcases List.mem_cons.mp ha1 with rfl | ha2
    · rfl
    obtain ⟨r, hr, rfl⟩ := List.mem_map.mp ha2
    rfl
  rw [markdown_to_yaml]
  simp only [hlines]
  rw [if_neg (by
    rw [validate_markdown_table]
    simp)]
  have hheaders := parse_rowLine (r0.map Prod.fst) hne
    (fun h hh => (hnames h hh).2.1) (fun h hh => (hnames h hh).1)
  rw [hheaders, List.map_map]
  have hrec : ∀ r ∈ r0 :: rest,
      ((fun line => pyDict ((r0.map Prod.fst).zip
          (((pySplitChar '|' (stripPipe line)).map strip).map parse_markdown_field))) ∘
        fun r => rowLine ((r0.map Prod.fst).map (fun h => format_markdown_cell (pyGet r h)))) r
      = id r := by
    intro r hr
    exact record_roundtrip (r0.map Prod.fst) r hne hnd (hrecs r hr).1 (hrecs r hr).2
  rw [List.map_congr_left hrec, List.map_id]
  simp

/-! ## Remaining helper lemmas for the claims -/

theorem startsWithDashSpace_eq (s : Str) (h : startsWithDashSpace s = true) :
    ∃ t, s = '-' :: ' ' :: t := by
  cases s with
  | nil => exact absurd h (by simp [startsWithDashSpace])
  | cons a t =>
    cases t with
    | nil => exact absurd h (by simp [startsWithDashSpace])
    | cons b u =>
      rw [startsWithDashSpace] at h
      simp only [Bool.and_eq_true, beq_iff_eq] at h
      obtain ⟨rfl, rfl⟩ := h
      exact ⟨u, rfl⟩

theorem pySplitEsc_head_cons (c : Char) (s : Str) (hc : c ≠ '\\') :
    ∃ chunk chunks, pySplitEsc (c :: s) = (c :: chunk) :: chunks := by
  cases s with
  | nil => exact ⟨[], [], rfl⟩
  | cons d u =>
    have hne : ¬(c = '\\' ∧ d = 'n') := fun h => hc h.1
    rw [pySplitEsc, if_neg hne]
    cases h2 : pySplitEsc (d :: u) with
    | nil => exact ⟨[], [], rfl⟩
    | cons ch chs => exact ⟨ch, chs, rfl⟩

theorem nodup_map_fst_zip (ks : List Str) (vs : List Yaml) (hnd : ks.Nodup) :
    ((ks.zip vs).map Prod.fst).Nodup := by
  induction ks generalizing vs with
  | nil => simp
  | cons k ks ih =>
    cases vs with
    | nil => simp
    | cons v vs =>
      obtain ⟨hk, hks⟩ := List.nodup_cons.mp hnd
      rw [List.zip_cons_cons, List.map_cons, List.nodup_cons]
      refine ⟨?_, ih vs hks⟩
      intro hmem
      obtain ⟨p, hp, hpk⟩ := List.mem_map.mp hmem
      have hmem2 : p.1 ∈ ks := (List.of_mem_zip hp).1
      rw [hpk] at hmem2
      exact hk hmem2

theorem pyDict_zip_of_nodup (ks : List Str) (vs : List Yaml) (hnd : ks.Nodup) :
    pyDict (ks.zip vs) = ks.zip vs :=
  pyDict_of_nodup _ (nodup_map_fst_zip ks vs hnd)

/-! ## Claim C5: conversion direction and default output path -/

/-- C5 counterexample: the default structured output for `report.md` under the
default `yaml` format is `report.yaml`, not the `report.yml` the claim states. -/
theorem C5_default_extension_counterexample :
    mainRoute "report.md".data none "yaml".data = .converted .toYaml "report.yaml".data ∧
    "report.yaml".data ≠ "report.yml".data := by
  exact ⟨rfl, by decide⟩

/-- C5 (amended): `report.md` selects the table-to-structured direction and the
default output appends a dot plus the format name — `report.yaml` under the
default format and `report.json` under `--format json`; `report.yaml` selects
the structured-to-table direction with default output `report.md`. -/
theorem C5_direction_defaults_amended :
    mainRoute "report.md".data none "yaml".data = .converted .toYaml "report.yaml".data ∧
    mainRoute "report.md".data none "json".data = .converted .toYaml "report.json".data ∧
    mainRoute "report.yaml".data none "yaml".data = .converted .toMd "report.md".data :=
  ⟨rfl, rfl, rfl⟩

/-! ## Claim C8: unsupported extension exits before any I/O -/

/-- C8: for every input path whose lower-cased extension is none of `.md`,
`.markdown`, `.yml`, `.yaml`, the router exits with the usage error (modelled
by `MainOutcome.usageExit`, produced before any file is opened), regardless of
the other command-line arguments. -/
theorem C8_unsupported_extension_exit (path : Str) (output : Option Str) (format : Str)
    (h : (splitext path).2.map Char.toLower ∉
      [".md".data, ".markdown".data, ".yml".data, ".yaml".data]) :
    mainRoute path output format = .usageExit := by
  have h1 : ¬((splitext path).2.map Char.toLower = ".md".data ∨
      (splitext path).2.map Char.toLower = ".markdown".data) := by
    rintro (h' | h') <;> exact h (by simp [h'])
  have h2 : ¬((splitext path).2.map Char.toLower = ".yml".data ∨
      (splitext path).2.map Char.toLower = ".yaml".data) := by
    rintro (h' | h') <;> exact h (by simp [h'])
  simp only [mainRoute, detect_mode]
  rw [if_neg h1, if_neg h2]

/-- C8 witness: a `.txt` path exits with the usage error. -/
theorem C8_unsupported_extension_witness :
    mainRoute "report.txt".data none "yaml".data = .usageExit :=
  C8_unsupported_extension_exit "report.txt".data none "yaml".data (by decide)

/-! ## Claim C10: the cell that is exactly the bullet marker -/

/-- C10 counterexample: the cell `"- "` decodes to a list containing one empty
string, not to the empty list the claim states. -/
theorem C10_empty_bullet_counterexample :
    parse_markdown_field "- ".data = .seq [.str []] ∧ Yaml.seq [Yaml.str []] ≠ Yaml.seq [] := by
  refine ⟨rfl, ?_⟩
  intro h
  injection h with h1
  exact List.noConfusion h1

/-- C10 (amended): the cell `"- "` decodes to a list — not a scalar — but that
list holds a single empty string rather than being empty; in general every cell
beginning with `"- "` decodes to a non-empty list, because the first bullet
line contains the non-blank character `'-'` and so survives the blank-line
filter. -/
theorem C10_bullet_cell_amended :
    parse_markdown_field "- ".data = .seq [.str []] ∧
    ∀ value, startsWithDashSpace value = true →
      ∃ xs, parse_markdown_field value = .seq xs ∧ xs ≠ [] := by
  refine ⟨rfl, ?_⟩
  intro value h
  obtain ⟨t, rfl⟩ := startsWithDashSpace_eq value h
  obtain ⟨chunk, chunks, hsp⟩ := pySplitEsc_head_cons '-' (' ' :: t) (by decide)
  rw [parse_markdown_field, if_pos h, hsp]
  refine ⟨_, rfl, ?_⟩
  have hkeep : strip ('-' :: chunk) ≠ [] :=
    strip_ne_nil_of_mem _ '-' (by simp) (by decide)
  simp [List.filter_cons, hkeep]

/-- C10 witness: the amended statement evaluated at the cell `"- "`. -/
theorem C10_bullet_cell_witness :
    ∃ xs, parse_markdown_field "- ".data = Yaml.seq xs ∧ xs ≠ [] :=
  C10_bullet_cell_amended.2 "- ".data rfl

/-! ## Claim C2: the list-cell codec -/

/-- The single leading `"- "` bullet marker removed, as the claim words it. -/
def stripMarker (line : Str) : Str :=
  match line with
  | '-' :: ' ' :: rest => rest
  | _ => line

/-- The cell decoding exactly as claim C2 words it: split on the literal
backslash-n escape, strip each resulting line's leading `"- "` marker and
surrounding whitespace, and drop the empty lines. -/
def specListCellDecode (value : Str) : List Str :=
  ((pySplitEsc value).map (fun line => strip (stripMarker line))).filter (fun l => l ≠ [])

/-- The cell decoding as amended: drop the lines that are blank before any
stripping, then remove all leading `'-'` and `' '` characters (Python's
`lstrip('- ')` takes a character set) and trim the remainder. -/
def amendedListCellDecode (value : Str) : List Str :=
  ((pySplitEsc value).filter (fun line => strip line ≠ [])).map
    (fun line => strip (lstripDashSpace line))

/-- C2 counterexample: on the cell `"- - alpha"` the code strips every leading
dash and space and yields the item `"alpha"`, while the decoding described by
the claim — removing one leading `"- "` marker and trimming — yields
`"- alpha"`. -/
theorem C2_marker_counterexample :
    parse_markdown_field "- - alpha".data = .seq [.str "alpha".data] ∧
    specListCellDecode "- - alpha".data = ["- alpha".data] ∧
    "alpha".data ≠ "- alpha".data :=
  ⟨rfl, rfl, by decide⟩

/-- C2 (amended): the record value `["alpha", "beta"]` encodes to the cell
`- alpha\n- beta` (with backslash-n as two literal characters) and that cell
decodes back to exactly `["alpha", "beta"]`; in general a cell beginning with
`"- "` decodes by splitting on the literal escape, keeping the non-blank
lines, and removing ALL leading `'-'`/`' '` characters of each kept line
before trimming (not just one `"- "` marker). -/
theorem C2_list_cell_codec_amended :
    format_markdown_cell (.seq [.str "alpha".data, .str "beta".data]) = "- alpha\\n- beta".data ∧
    parse_markdown_field "- alpha\\n- beta".data = .seq [.str "alpha".data, .str "beta".data] ∧
    ∀ value, startsWithDashSpace value = true →
      parse_markdown_field value = .seq ((amendedListCellDecode value).map .str) := by
  refine ⟨rfl, rfl, ?_⟩
  intro value h
  rw [parse_markdown_field, if_pos h, amendedListCellDecode, List.map_map]
  rfl

/-- C2 witness: the amended general statement evaluated at the cell `"- x"`. -/
theorem C2_list_cell_codec_witness :
    parse_markdown_field "- x".data = .seq ((amendedListCellDecode "- x".data).map .str) :=
  C2_list_cell_codec_amended.2.2 "- x".data rfl

/-! ## Claim C3: input too short to contain header and separator -/

/-- C3 counterexample: an input of exactly one header line and one separator
line is rejected by the validation (error logged, conversion returns without
raising and without writing) instead of yielding an empty document. -/
theorem C3_header_separator_counterexample :
    markdown_to_yaml ["| A |".data, "|:-:|".data] false = .invalid ∧
    ∀ records, MdOutcome.invalid ≠ MdOutcome.wrote records := by
  refine ⟨rfl, ?_⟩
  intro records h
  exact MdOutcome.noConfusion h

/-- C3 (amended): table parsing rejects the input — logging an error and
returning with no output written and no exception raised, rather than raising
a propagating FormatError — exactly when fewer than 3 non-empty lines remain
after stripping, so a header plus separator with zero data rows is itself
rejected rather than yielding an empty document. -/
theorem C3_short_input_amended (fileLines : List Str) (dry_run : Bool) :
    markdown_to_yaml fileLines dry_run = .invalid ↔
      ((fileLines.map strip).filter (fun l => !l.isEmpty)).length < 3 := by
  simp only [markdown_to_yaml]
  generalize (fileLines.map strip).filter (fun l => !l.isEmpty) = lines
  by_cases h : lines.length < 3
  · rw [validate_markdown_table, if_pos h]
    simp [h]
  · rw [validate_markdown_table, if_neg h]
    rcases lines with _ | ⟨l0, _ | ⟨l1, _ | ⟨l2, rest⟩⟩⟩
    · simp at h
    · simp at h
    · simp at h
    · simp only [List.length_cons, Bool.true_eq_false, if_false]
      constructor
      · intro h2
        cases dry_run with
        | false => exact absurd h2 (by simp)
        | true => exact absurd h2 (by simp)
      · intro h2
        omega

/-- C3 witness: the empty input is rejected. -/
theorem C3_short_input_witness : markdown_to_yaml ([] : List Str) false = .invalid :=
  (C3_short_input_amended [] false).mpr (by decide)

/-! ## Claim C4: empty or malformed structured input -/

/-- C4 counterexample: a truthy non-sequence input (the scalar `"hello"`)
raises instead of warning-and-proceeding, and a falsy input (the empty
sequence) returns after the warning with nothing written — no empty or
header-only output is produced in either case. -/
theorem C4_nonsequence_counterexample :
    yaml_to_markdown (.str "hello".data) false = .raised ∧
    yaml_to_markdown (.seq []) false = .emptyWarning ∧
    (∀ L, YamlOutcome.emptyWarning ≠ YamlOutcome.wrote L) ∧
    (∀ L, YamlOutcome.raised ≠ YamlOutcome.wrote L) := by
  refine ⟨rfl, rfl, ?_, ?_⟩ <;> intro L h <;> exact YamlOutcome.noConfusion h

theorem asMapList_eq_some (rs : List Yaml) (ms : List Record)
    (h : asMapList rs = some ms) : rs = ms.map Yaml.map := by
  induction rs generalizing ms with
  | nil =>
    obtain rfl : ([] : List Record) = ms := Option.some_inj.mp h
    rfl
  | cons x rest ih =>
    cases x with
    | map kvs =>
      rw [asMapList] at h
      cases ham : asMapList rest with
      | none =>
        rw [ham] at h
        exact Option.noConfusion h
      | some ms' =>
        rw [ham] at h
        obtain rfl : kvs :: ms' = ms := Option.some_inj.mp h
        rw [List.map_cons, ← ih ms' ham]
    | null => exact Option.noConfusion h
    | str s => exact Option.noConfusion h
    | seq xs => exact Option.noConfusion h

/-- C4 (amended): a structured input that deserializes to a falsy value (null,
empty string, empty sequence or empty mapping) logs the warning and returns
with zero records and nothing written; a truthy value that is not a sequence
of mappings — a non-sequence, or a sequence with some non-mapping element —
instead raises an error that is logged and re-raised. -/
theorem C4_malformed_input_amended (input : Yaml) (dry_run : Bool) :
    (truthy input = false → yaml_to_markdown input dry_run = .emptyWarning) ∧
    (truthy input = true → (∀ ms : List Record, input ≠ .seq (ms.map Yaml.map)) →
      yaml_to_markdown input dry_run = .raised) := by
  constructor
  · intro h
    rw [yaml_to_markdown.eq_def, h]
    rfl
  · intro h hseq
    rw [yaml_to_markdown.eq_def, h]
    cases input with
    | null => simp [truthy] at h
    | str s => rfl
    | map kvs => rfl
    | seq rs =>
      cases ham : asMapList rs with
      | none => simp [ham]
      | some ms => exact absurd (congrArg Yaml.seq (asMapList_eq_some rs ms ham)) (hseq ms)

/-- C4 witness: the amended statement at the empty sequence, at the scalar
string `"hello"`, and at the sequence `["x"]` whose element is not a
mapping. -/
theorem C4_malformed_input_witness :
    yaml_to_markdown (.seq []) false = .emptyWarning ∧
    yaml_to_markdown (.str "hello".data) false = .raised ∧
    yaml_to_markdown (.seq [.str "x".data]) false = .raised :=
  ⟨(C4_malformed_input_amended (.seq []) false).1 rfl,
   (C4_malformed_input_amended (.str "hello".data) false).2 rfl
     (fun _ h => Yaml.noConfusion h),
   (C4_malformed_input_amended (.seq [.str "x".data]) false).2 rfl
     (by
       intro ms h
       injection h with h1
       cases ms with
       | nil => exact List.noConfusion h1
       | cons m ms' =>
         injection h1 with h2
         exact Yaml.noConfusion h2)⟩

/-! ## Claim C9: duplicate header names -/

/-- C9: when the header contains some name at two or more positions (that is,
its name list is not duplicate-free) and the data row covers every header
cell, the record built by `dict(zip(headers, values))` keeps for every name —
in particular for the repeated one — only the value paired with the LAST
position bearing it: looking a name up in the built record agrees with
looking it up in the reversed pair list.  The record then has strictly fewer
entries than the header has columns. -/
theorem C9_duplicate_header_last_wins (ks : List Str) (vs : List Yaml) (k : Str)
    (hlen : ks.length ≤ vs.length) (hdup : ¬ ks.Nodup) :
    pyGet (pyDict (ks.zip vs)) k = pyGet (ks.zip vs).reverse k ∧
    (pyDict (ks.zip vs)).length < ks.length := by
  refine ⟨pyGet_pyDict _ k, ?_⟩
  have hkeys : (ks.zip vs).map Prod.fst = ks := List.map_fst_zip ks vs hlen
  have hnd : ¬ ((ks.zip vs).map Prod.fst).Nodup := by
    rw [hkeys]
    exact hdup
  have hlt := length_pyDict_lt _ hnd
  have hle : (ks.zip vs).length ≤ ks.length := by
    rw [List.length_zip]
    exact Nat.min_le_left _ _
  omega

/-- C9 witness: a two-column header repeating the name `A` with row values
`x`, `y` keeps only `y`, and the record has one entry against two columns. -/
theorem C9_duplicate_header_witness :
    pyGet (pyDict ((["A".data, "A".data] : List Str).zip
        [Yaml.str "x".data, Yaml.str "y".data])) "A".data
      = pyGet ((["A".data, "A".data] : List Str).zip
        [Yaml.str "x".data, Yaml.str "y".data]).reverse "A".data ∧
    (pyDict ((["A".data, "A".data] : List Str).zip
        [Yaml.str "x".data, Yaml.str "y".data])).length
      < (["A".data, "A".data] : List Str).length :=
  C9_duplicate_header_last_wins ["A".data, "A".data]
    [Yaml.str "x".data, Yaml.str "y".data] "A".data (by decide) (by decide)

/-! ## Claim C7: dry-run writes nothing -/

/-- C7: with dry-run set, neither conversion direction ever reaches a write:
the table-to-structured direction ends in the validation-failure return or in
the dry-run report carrying the parsed record count, and the
structured-to-table direction ends in the empty-input warning, a raised
error, or the dry-run report — never in `wrote`, the only outcome that
creates, truncates, or modifies the output path. -/
theorem C7_dry_run_no_write (fileLines : List Str) (input : Yaml) :
    (markdown_to_yaml fileLines true = .invalid ∨
      ∃ n, markdown_to_yaml fileLines true = .dryRunCount n) ∧
    (yaml_to_markdown input true = .emptyWarning ∨ yaml_to_markdown input true = .raised ∨
      ∃ n, yaml_to_markdown input true = .dryRunCount n) := by
  constructor
  · simp only [markdown_to_yaml]
    generalize (fileLines.map strip).filter (fun l => !l.isEmpty) = lines
    by_cases h : lines.length < 3
    · left
      rw [validate_markdown_table, if_pos h]
      simp
    · rw [validate_markdown_table, if_neg h]
      rcases lines with _ | ⟨l0, _ | ⟨l1, _ | ⟨l2, rest⟩⟩⟩
      · simp at h
      · simp at h
      · simp at h
      · right
        exact ⟨rest.length + 1, by simp⟩
  · cases htr : truthy input with
    | false =>
      left
      rw [yaml_to_markdown.eq_def, htr]
      rfl
    | true =>
      cases input with
      | null => simp [truthy] at htr
      | str s =>
        right
        left
        rw [yaml_to_markdown.eq_def, htr]
        rfl
      | map kvs =>
        right
        left
        rw [yaml_to_markdown.eq_def, htr]
        rfl
      | seq rs =>
        rw [yaml_to_markdown.eq_def, htr]
        cases ham : asMapList rs with
        | none =>
          right
          left
          simp [ham]
        | some ms =>
          cases ms with
          | nil =>
            right
            left
            simp [ham]
          | cons r0 rest =>
            right
            right
            exact ⟨rest.length + 1, by simp [ham]⟩

/-! ## Claim C6: malformed-row tolerance -/

/-- C6: a table of one header line, one separator line, and one data row with
fewer cells than the header parses successfully into exactly one record that
pairs the header names positionally with the parsed cells — `zip` truncates,
so the missing trailing fields stay unset (and extra trailing cells of an
over-long row would be dropped the same way) — while the validation logs
exactly one field-count warning citing line 3, the data row's 1-based
position. -/
theorem C6_malformed_row_tolerance (l0 l1 ld : Str)
    (h0 : strip l0 ≠ []) (h1 : strip l1 ≠ []) (hd : strip ld ≠ [])
    (hnd : ((pySplitChar '|' (stripPipe (strip l0))).map strip).Nodup)
    (hlt : (pySplitChar '|' (stripPipe (strip ld))).length <
        (pySplitChar '|' (stripPipe (strip l0))).length) :
    markdown_to_yaml [l0, l1, ld] false =
      .wrote [((pySplitChar '|' (stripPipe (strip l0))).map strip).zip
        (((pySplitChar '|' (stripPipe (strip ld))).map strip).map parse_markdown_field)] ∧
    validate_markdown_table_warnings [strip l0, strip l1, strip ld] = [3] := by
  constructor
  · simp only [markdown_to_yaml, List.map_cons, List.map_nil]
    have e0 : (!(strip l0).isEmpty) = true := by
      cases hs : strip l0 with
      | nil => exact absurd hs h0
      | cons a t => rfl
    have e1 : (!(strip l1).isEmpty) = true := by
      cases hs : strip l1 with
      | nil => exact absurd hs h1
      | cons a t => rfl
    have ed : (!(strip ld).isEmpty) = true := by
      cases hs : strip ld with
      | nil => exact absurd hs hd
      | cons a t => rfl
    have hfl : List.filter (fun l => !l.isEmpty) [strip l0, strip l1, strip ld]
        = [strip l0, strip l1, strip ld] := by
      apply List.filter_eq_self.mpr
      intro a ha
      rcases List.mem_cons.mp ha with rfl | ha1
      · exact e0
      rcases List.mem_cons.mp ha1 with rfl | ha2
      · exact e1
      rcases List.mem_cons.mp ha2 with rfl | ha3
      · exact ed
      · exact absurd ha3 (List.not_mem_nil _)
    rw [hfl]
    exact congrArg (fun x => MdOutcome.wrote [x]) (pyDict_zip_of_nodup _ _ hnd)
  · have hne2 : (pySplitChar '|' (stripPipe (strip ld))).length ≠
        (pySplitChar '|' (stripPipe (strip l0))).length := Nat.ne_of_lt hlt
    simp [validate_markdown_table_warnings, List.enumFrom, hne2]

/-- C6 witness: the two-column header `A | B` with the single-cell data row
`x` yields one record holding only `A`, and one warning for line 3. -/
theorem C6_malformed_row_witness :
    markdown_to_yaml ["| A | B |".data, "|:-:|:-:|".data, "| x |".data] false
      = .wrote [[("A".data, Yaml.str "x".data)]] ∧
    validate_markdown_table_warnings
      ["| A | B |".data, "|:-:|:-:|".data, "| x |".data] = [3] := by
  have h := C6_malformed_row_tolerance "| A | B |".data "|:-:|:-:|".data "| x |".data
    (by decide) (by decide) (by decide) (by decide) (by decide)
  exact ⟨h.1, h.2⟩

/-! ## Claim C1: the document round trip -/

/-- C1 counterexample: the single-record document whose only field value is
the scalar `"x|y"` — a scalar that neither is `"- "` nor begins with the
bullet marker, so the claim asserts it round-trips — encodes to a row whose
cell text contains a pipe, and decoding splits on that pipe: the decoded
record holds `"x"`, not `"x|y"`. -/
theorem C1_pipe_counterexample :
    yaml_to_markdown (.seq [.map [("A".data, .str "x|y".data)]]) false
      = .wrote ["| A |".data, "|:-:|".data, "| x|y |".data] ∧
    markdown_to_yaml ["| A |".data, "|:-:|".data, "| x|y |".data] false
      = .wrote [[("A".data, .str "x".data)]] ∧
    Yaml.str "x".data ≠ Yaml.str "x|y".data := by
  refine ⟨rfl, rfl, ?_⟩
  intro h
  injection h with h1
  exact absurd (congrArg List.length h1) (by decide)

/-- C1 (amended): serializing a document to table form and parsing it back
reproduces the document exactly — same field values, same row order — for
every non-empty record list sharing one non-empty, duplicate-free header of
trimmed, pipe-free, line-break-free names, whose field values are
well-behaved scalars (trimmed, free of pipes and line breaks, not beginning
with the bullet marker `"- "`) or non-empty lists of well-behaved items
(non-empty trimmed strings, free of pipes, line breaks and of the literal
backslash-n escape, not beginning with `'-'`). -/
theorem C1_round_trip_amended (r0 : Record) (rest : List Record)
    (hne : r0.map Prod.fst ≠ []) (hnd : (r0.map Prod.fst).Nodup)
    (hnames : ∀ h ∈ r0.map Prod.fst, goodName h)
    (hrecs : ∀ r ∈ r0 :: rest, r.map Prod.fst = r0.map Prod.fst ∧ ∀ p ∈ r, goodValue p.2) :
    ∃ L, yaml_to_markdown (.seq ((r0 :: rest).map Yaml.map)) false = .wrote L ∧
      markdown_to_yaml L false = .wrote (r0 :: rest) :=
  document_roundtrip r0 rest hne hnd hnames hrecs

/-- C1 witness: a record with one scalar field and one two-item list field
round-trips through the table form. -/
theorem C1_round_trip_witness :
    ∃ L, yaml_to_markdown (.seq [Yaml.map [("Name".data, Yaml.str "x".data),
        ("Tags".data, Yaml.seq [Yaml.str "alpha".data, Yaml.str "beta".data])]]) false
        = .wrote L ∧
      markdown_to_yaml L false = .wrote [[("Name".data, Yaml.str "x".data),
        ("Tags".data, Yaml.seq [Yaml.str "alpha".data, Yaml.str "beta".data])]] :=
  C1_round_trip_amended
    [("Name".data, Yaml.str "x".data),
     ("Tags".data, Yaml.seq [Yaml.str "alpha".data, Yaml.str "beta".data])]
    [] (by decide) (by decide) (by decide)
    (by
      intro r hr
      rcases List.mem_cons.mp hr with rfl | hr'
      · refine ⟨rfl, ?_⟩
        intro p hp
        rcases List.mem_cons.mp hp with rfl | hp'
        · exact show goodScalar "x".data by decide
        · rcases List.mem_cons.mp hp' with rfl | hp''
          · exact ⟨by simp, by decide, by decide, trivial⟩
          · exact absurd hp'' (List.not_mem_nil _)
      · exact absurd hr' (List.not_mem_nil _))

